import Mathlib

/-!
Verification of the tiled streaming-softmax attention kernels in
`tritonbench/kernels/triton_fused_attention.py`.

The kernel code is float arithmetic on GPU tiles; following the claims it is
modelled here over exact real arithmetic.  All per-tile operations in the
forward inner loop (`_attn_fwd_inner`) act row-wise on the query dimension
(the running statistics `m_i`, `l_i` are per-row vectors, the score matrix
`qk` is processed with row-wise maxima and sums, and `acc` rows are rescaled
independently), so a single query row is the faithful unit of modelling;
tiling over `BLOCK_M` only groups independent rows into one program instance.

The float value `-inf` that initialises the running maximum `m_i` is modelled
by `Option ℝ`, with `none` standing for `-inf`:
`tl.maximum(-inf, x) = x` and `tl.math.exp2(-inf - x) = 0`.
-/

namespace TritonFusedAttention

/-- One key/value pair: a key row and a value row of head dimension `d`,
as loaded from the `K` and `V` tensors at one sequence position. -/
abbrev KV (d : ℕ) := (Fin d → ℝ) × (Fin d → ℝ)

/-- Base-2 exponential, the exact-real semantics of `tl.math.exp2`. -/
noncomputable def exp2 (x : ℝ) : ℝ := (2 : ℝ) ^ x

/-- Dot product of two rows, the exact-real semantics of one entry of
`tl.dot`. -/
noncomputable def dotProd {d : ℕ} (a b : Fin d → ℝ) : ℝ := ∑ t, a t * b t

/-- Exact value of the prescale constant: the source multiplies the softmax
scale by the float literal `1.44269504` (`qk_scale *= 1.44269504  # 1/log(2)`),
whose exact-real intent is `log2 e = 1 / ln 2`. -/
noncomputable def log2e : ℝ := 1 / Real.log 2

/-- Row maximum of a block of scores, the semantics of `tl.max(qk, 1)` for one
row.  A block processed by the kernel loop is never empty; the value on `[]`
is an arbitrary default. -/
def blockMax : List ℝ → ℝ
  | [] => 0
  | x :: xs => xs.foldl max x

/-- Semantics of `tl.maximum(m_i, x)` where `m_i : Option ℝ` models a float
that may be `-inf` (`none`). -/
def optMax (m : Option ℝ) (x : ℝ) : ℝ :=
  match m with
  | none => x
  | some v => max v x

/-- Semantics of `alpha = tl.math.exp2(m_i - m_ij)` where `m_i` may be `-inf`
(`none`): `exp2(-inf - x) = 0`. -/
noncomputable def alphaOf (m : Option ℝ) (mNew : ℝ) : ℝ :=
  match m with
  | none => 0
  | some v => exp2 (v - mNew)

/-- Per-query-row state of the forward streaming-softmax loop: running
maximum `m` (`none` models the `-inf` initialisation), running normalisation
sum `l`, and the unnormalised output accumulator `acc`. -/
structure FwdState (d : ℕ) where
  m : Option ℝ
  l : ℝ
  acc : Fin d → ℝ

/-- Initial state of `_attn_fwd_compute` for one query row:
`m_i = -inf`, `l_i = 1.0`, `acc = 0`. -/
def initState (d : ℕ) : FwdState d := ⟨none, 1, fun _ => 0⟩

/-- One iteration of the unmasked branch (`STAGE != 2`) of the loop body of
`_attn_fwd_inner`, for one query row `q` and one key/value tile `b`:

* `qk = tl.dot(q, k)`;
* `m_ij = tl.maximum(m_i, tl.max(qk, 1) * qk_scale)`;
* `qk = qk * qk_scale - m_ij`; `p = tl.math.exp2(qk)`;
* `l_ij = tl.sum(p, 1)`; `alpha = tl.math.exp2(m_i - m_ij)`;
* `l_i = l_i * alpha + l_ij`;
* `acc = acc * alpha`; `acc = tl.dot(p, v, acc)`; `m_i = m_ij`.

The dtype casts of `p` (`bfloat16` / `float8e5`) are identities in the
exact-real model. -/
noncomputable def attnBlockStep {d : ℕ} (qk_scale : ℝ) (q : Fin d → ℝ)
    (st : FwdState d) (b : List (KV d)) : FwdState d :=
  let mij := optMax st.m (blockMax (b.map fun kv => dotProd q kv.1) * qk_scale)
  let p : KV d → ℝ := fun kv => exp2 (dotProd q kv.1 * qk_scale - mij)
  let lij := (b.map p).sum
  let alpha := alphaOf st.m mij
  { m := some mij
    l := st.l * alpha + lij
    acc := fun t => st.acc t * alpha + (b.map fun kv => p kv * kv.2 t).sum }

/-- Folding the streaming-softmax update over a list of key/value tiles,
starting from the `-inf / 1 / 0` initial state: the loop of
`_attn_fwd_inner` with `STAGE = 3` (non-causal), where the tiles are the
`BLOCK_N`-wide chunks of the key sequence. -/
noncomputable def attnForwardRowState {d : ℕ} (qk_scale : ℝ) (q : Fin d → ℝ)
    (blocks : List (List (KV d))) : FwdState d :=
  blocks.foldl (attnBlockStep qk_scale q) (initState d)

/-- Forward result for one query row: the loop over key tiles followed by the
epilogue of `_attn_fwd_compute`
(`m_i += tl.math.log2(l_i)`; `acc = acc / l_i`): the row statistic written to
`M` and the output row written to `Out`. -/
noncomputable def attnForwardRow {d : ℕ} (qk_scale : ℝ) (q : Fin d → ℝ)
    (blocks : List (List (KV d))) : Option ℝ × (Fin d → ℝ) :=
  let st := attnForwardRowState qk_scale q blocks
  (st.m.map fun x => x + Real.logb 2 st.l, fun t => st.acc t / st.l)

/-- Direct (untiled) softmax attention for one query row:
row `i` of `softmax(sm_scale * Q Kᵀ) @ V`, with the natural-base softmax. -/
noncomputable def directAttentionRow {d : ℕ} (sm_scale : ℝ) (q : Fin d → ℝ)
    (kvs : List (KV d)) (t : Fin d) : ℝ :=
  (kvs.map fun kv => Real.exp (sm_scale * dotProd q kv.1) * kv.2 t).sum /
    (kvs.map fun kv => Real.exp (sm_scale * dotProd q kv.1)).sum

/-- Splitting a list into consecutive chunks of size `n` (fuel-indexed helper,
the fuel is the list length). -/
def chunkFuel {α : Type} (n : ℕ) : ℕ → List α → List (List α)
  | 0, _ => []
  | _ + 1, [] => []
  | fuel + 1, x :: xs => (x :: xs).take n :: chunkFuel n fuel ((x :: xs).drop n)

/-- The `BLOCK_N`-wide tiles of a key/value sequence: the iteration
`for start_n in tl.range(lo, hi, BLOCK_N)` visits exactly the consecutive
`n`-chunks of the visited range. -/
def chunk {α : Type} (n : ℕ) (l : List α) : List (List α) :=
  chunkFuel n l.length l

/-- Unnormalised sum of exponentials of the scaled scores of `kvs`, relative
to the reference maximum `M`: the value the running `l_i` holds after the
processed tiles. -/
noncomputable def sumExpList {d : ℕ} (qk_scale : ℝ) (q : Fin d → ℝ)
    (kvs : List (KV d)) (M : ℝ) : ℝ :=
  (kvs.map fun kv => exp2 (dotProd q kv.1 * qk_scale - M)).sum

/-- Unnormalised weighted value sum relative to the reference maximum `M`:
the value the accumulator `acc` holds after the processed tiles. -/
noncomputable def wsumList {d : ℕ} (qk_scale : ℝ) (q : Fin d → ℝ)
    (kvs : List (KV d)) (M : ℝ) (t : Fin d) : ℝ :=
  (kvs.map fun kv => exp2 (dotProd q kv.1 * qk_scale - M) * kv.2 t).sum

lemma exp2_add (x y : ℝ) : exp2 (x + y) = exp2 x * exp2 y :=
  Real.rpow_add (by norm_num) x y

lemma exp2_pos (x : ℝ) : 0 < exp2 x := Real.rpow_pos_of_pos (by norm_num) x

lemma exp2_ne_zero (x : ℝ) : exp2 x ≠ 0 := (exp2_pos x).ne'

lemma sumExpList_shift {d : ℕ} (qk_scale : ℝ) (q : Fin d → ℝ)
    (kvs : List (KV d)) (M M' : ℝ) :
    sumExpList qk_scale q kvs M' = exp2 (M - M') * sumExpList qk_scale q kvs M := by
  induction kvs with
  | nil => simp [sumExpList]
  | cons kv rest ih =>
      simp only [sumExpList, List.map_cons, List.sum_cons] at ih ⊢
      rw [ih, mul_add, ← exp2_add]
      congr 2
      ring

lemma wsumList_shift {d : ℕ} (qk_scale : ℝ) (q : Fin d → ℝ)
    (kvs : List (KV d)) (M M' : ℝ) (t : Fin d) :
    wsumList qk_scale q kvs M' t = exp2 (M - M') * wsumList qk_scale q kvs M t := by
  induction kvs with
  | nil => simp [wsumList]
  | cons kv rest ih =>
      simp only [wsumList, List.map_cons, List.sum_cons] at ih ⊢
      rw [ih, mul_add, ← mul_assoc, ← exp2_add]
      congr 3
      ring

lemma sumExpList_append {d : ℕ} (qk_scale : ℝ) (q : Fin d → ℝ)
    (P b : List (KV d)) (M : ℝ) :
    sumExpList qk_scale q (P ++ b) M = sumExpList qk_scale q P M + sumExpList qk_scale q b M := by
  simp [sumExpList]

lemma wsumList_append {d : ℕ} (qk_scale : ℝ) (q : Fin d → ℝ)
    (P b : List (KV d)) (M : ℝ) (t : Fin d) :
    wsumList qk_scale q (P ++ b) M t = wsumList qk_scale q P M t + wsumList qk_scale q b M t := by
  simp [wsumList]

/-- One loop iteration from a state whose running maximum is already finite:
explicit form of the updated state. -/
lemma attnBlockStep_some {d : ℕ} (qk_scale : ℝ) (q : Fin d → ℝ)
    (M L : ℝ) (A : Fin d → ℝ) (b : List (KV d)) :
    attnBlockStep qk_scale q ⟨some M, L, A⟩ b =
      ⟨some (max M (blockMax (b.map fun kv => dotProd q kv.1) * qk_scale)),
       L * exp2 (M - max M (blockMax (b.map fun kv => dotProd q kv.1) * qk_scale)) +
         sumExpList qk_scale q b (max M (blockMax (b.map fun kv => dotProd q kv.1) * qk_scale)),
       fun t =>
         A t * exp2 (M - max M (blockMax (b.map fun kv => dotProd q kv.1) * qk_scale)) +
           wsumList qk_scale q b (max M (blockMax (b.map fun kv => dotProd q kv.1) * qk_scale)) t⟩ := by
  rfl

/-- The first loop iteration, from the `-inf / 1 / 0` initial state. -/
lemma attnBlockStep_init {d : ℕ} (qk_scale : ℝ) (q : Fin d → ℝ) (b : List (KV d)) :
    attnBlockStep qk_scale q (initState d) b =
      ⟨some (blockMax (b.map fun kv => dotProd q kv.1) * qk_scale),
       sumExpList qk_scale q b (blockMax (b.map fun kv => dotProd q kv.1) * qk_scale),
       fun t => wsumList qk_scale q b (blockMax (b.map fun kv => dotProd q kv.1) * qk_scale) t⟩ := by
  simp [attnBlockStep, initState, optMax, alphaOf, sumExpList, wsumList]

/-- Loop invariant of the streaming-softmax fold: started from a state holding
the unnormalised sums of a processed key list `P` relative to some finite
reference `M`, the loop ends holding the unnormalised sums of all processed
keys relative to some reference `M'`. -/
lemma attnFold_inv {d : ℕ} (qk_scale : ℝ) (q : Fin d → ℝ) :
    ∀ (blocks : List (List (KV d))) (P : List (KV d)) (M : ℝ),
      ∃ M', blocks.foldl (attnBlockStep qk_scale q)
          ⟨some M, sumExpList qk_scale q P M, fun t => wsumList qk_scale q P M t⟩ =
        ⟨some M', sumExpList qk_scale q (P ++ blocks.flatten) M',
         fun t => wsumList qk_scale q (P ++ blocks.flatten) M' t⟩ := by
  intro blocks
  induction blocks with
  | nil => exact fun P M => ⟨M, by simp⟩
  | cons b rest ih =>
      intro P M
      have hstep : attnBlockStep qk_scale q
          ⟨some M, sumExpList qk_scale q P M, fun t => wsumList qk_scale q P M t⟩ b =
          ⟨some (max M (blockMax (b.map fun kv => dotProd q kv.1) * qk_scale)),
           sumExpList qk_scale q (P ++ b)
             (max M (blockMax (b.map fun kv => dotProd q kv.1) * qk_scale)),
           fun t => wsumList qk_scale q (P ++ b)
             (max M (blockMax (b.map fun kv => dotProd q kv.1) * qk_scale)) t⟩ := by
        rw [attnBlockStep_some]
        congr 1
        · rw [sumExpList_append,
            sumExpList_shift qk_scale q P M
              (max M (blockMax (b.map fun kv => dotProd q kv.1) * qk_scale))]
          ring
        · funext t
          rw [wsumList_append,
            wsumList_shift qk_scale q P M
              (max M (blockMax (b.map fun kv => dotProd q kv.1) * qk_scale)) t]
          ring
      rw [List.foldl_cons, hstep]
      obtain ⟨M'', h⟩ :=
        ih (P ++ b) (max M (blockMax (b.map fun kv => dotProd q kv.1) * qk_scale))
      exact ⟨M'', by rw [h]; simp [List.append_assoc]⟩

/-- After processing a nonempty list of tiles, the loop state holds exactly
the unnormalised softmax sums of the concatenation of the tiles, relative to
some finite reference value. -/
lemma attnForwardRowState_spec {d : ℕ} (qk_scale : ℝ) (q : Fin d → ℝ)
    (blocks : List (List (KV d))) (hne : blocks ≠ []) :
    ∃ M, attnForwardRowState qk_scale q blocks =
      ⟨some M, sumExpList qk_scale q blocks.flatten M,
       fun t => wsumList qk_scale q blocks.flatten M t⟩ := by
  cases blocks with
  | nil => exact absurd rfl hne
  | cons b rest =>
      unfold attnForwardRowState
      rw [List.foldl_cons, attnBlockStep_init]
      obtain ⟨M', h⟩ :=
        attnFold_inv qk_scale q rest b (blockMax (b.map fun kv => dotProd q kv.1) * qk_scale)
      exact ⟨M', by rw [h]; simp⟩

lemma chunkFuel_join {α : Type} (n : ℕ) (hn : 0 < n) :
    ∀ (fuel : ℕ) (l : List α), l.length ≤ fuel → (chunkFuel n fuel l).flatten = l := by
  intro fuel
  induction fuel with
  | zero =>
      intro l hl
      have : l = [] := List.eq_nil_of_length_eq_zero (Nat.le_zero.mp hl)
      subst this
      simp [chunkFuel]
  | succ f ih =>
      intro l hl
      cases l with
      | nil => simp [chunkFuel]
      | cons x xs =>
          have hlen : xs.length + 1 ≤ f + 1 := by simpa using hl
          have hd : (List.drop n (x :: xs)).length ≤ f := by
            simp only [List.length_drop, List.length_cons]
            omega
          simp only [chunkFuel, List.flatten_cons]
          rw [ih _ hd, List.take_append_drop]

lemma chunk_join {α : Type} (n : ℕ) (hn : 0 < n) (l : List α) :
    (chunk n l).flatten = l :=
  chunkFuel_join n hn l.length l le_rfl

/-- With the exact `log2(e)` prescale, the base-2 exponential of a prescaled
score is the natural exponential of the score. -/
lemma exp2_scale_to_exp (a s : ℝ) : exp2 (s * (a * log2e)) = Real.exp (a * s) := by
  unfold exp2 log2e
  rw [Real.rpow_def_of_pos (by norm_num : (0:ℝ) < 2)]
  congr 1
  have h : Real.log 2 ≠ 0 := (Real.log_pos (by norm_num)).ne'
  field_simp
  ring

lemma sumExpList_zero_ref {d : ℕ} (sm_scale : ℝ) (q : Fin d → ℝ) (kvs : List (KV d)) :
    sumExpList (sm_scale * log2e) q kvs 0 =
      (kvs.map fun kv => Real.exp (sm_scale * dotProd q kv.1)).sum := by
  simp [sumExpList, sub_zero, exp2_scale_to_exp]

lemma wsumList_zero_ref {d : ℕ} (sm_scale : ℝ) (q : Fin d → ℝ) (kvs : List (KV d)) (t : Fin d) :
    wsumList (sm_scale * log2e) q kvs 0 t =
      (kvs.map fun kv => Real.exp (sm_scale * dotProd q kv.1) * kv.2 t).sum := by
  simp [wsumList, sub_zero, exp2_scale_to_exp]

/-- C1: for every query row, key/value sequence, softmax scale and tile width
`BLOCK_N`, the result of folding the streaming-softmax update
(`_attn_fwd_inner`) over the `BLOCK_N`-wide key tiles, followed by the
epilogue normalisation of `_attn_fwd_compute`, equals the direct (untiled)
softmax-attention output `softmax(sm_scale * Q Kᵀ) @ V` for that row, over
exact real arithmetic.  The streaming fold touches one tile at a time and
never forms the full score list, and the query-tile width `BLOCK_M` only
groups independent rows, so this covers every tile-size choice. -/
theorem attn_fwd_tiled_eq_direct {d : ℕ} (sm_scale : ℝ) (q : Fin d → ℝ)
    (kvs : List (KV d)) (BN : ℕ) (hBN : 0 < BN) (t : Fin d) :
    (attnForwardRow (sm_scale * log2e) q (chunk BN kvs)).2 t =
      directAttentionRow sm_scale q kvs t := by
  by_cases h : chunk BN kvs = []
  · have hkvs : kvs = [] := by
      have h2 := chunk_join BN hBN kvs
      rw [h] at h2
      simpa using h2.symm
    subst hkvs
    rw [h]
    simp [attnForwardRow, attnForwardRowState, initState, directAttentionRow]
  · obtain ⟨M, hM⟩ := attnForwardRowState_spec (sm_scale * log2e) q (chunk BN kvs) h
    unfold attnForwardRow
    rw [hM]
    simp only
    rw [chunk_join BN hBN]
    rw [wsumList_shift (sm_scale * log2e) q kvs 0 M t,
      sumExpList_shift (sm_scale * log2e) q kvs 0 M,
      mul_div_mul_left _ _ (exp2_ne_zero (0 - M)),
      wsumList_zero_ref, sumExpList_zero_ref]
    rfl

lemma blockMax_map_mul_right (c : ℝ) (hc : 0 ≤ c) (l : List ℝ) :
    blockMax (l.map fun x => x * c) = blockMax l * c := by
  cases l with
  | nil => simp [blockMax]
  | cons x xs =>
      simp only [blockMax, List.map_cons]
      induction xs generalizing x with
      | nil => simp
      | cons y ys ih =>
          simp only [List.map_cons, List.foldl_cons]
          rw [← max_mul_of_nonneg x y hc]
          exact ih (max x y)

/-- C2: one iteration of the streaming-softmax inner loop, from a state whose
running maximum is finite, computes `m_new = max(m_old, block row max)` of the
prescaled logits, rescales by `alpha = exp2(m_old - m_new)` (the base-2 form
of `exp(m_old - m_new)` after the `log2(e)` prescale of the softmax scale),
and sets `l_new = l_old * alpha + sum(exp2(logits - m_new))` and
`acc_new = acc_old * alpha + exp2(logits - m_new) @ V_block`.  The source
computes `tl.max(qk, 1) * qk_scale`; for a nonnegative scale this is the row
max of the prescaled logits. -/
theorem attn_fwd_inner_step {d : ℕ} (qk_scale : ℝ) (hscale : 0 ≤ qk_scale)
    (q : Fin d → ℝ) (M L : ℝ) (A : Fin d → ℝ) (b : List (KV d)) (hb : b ≠ []) :
    (attnBlockStep qk_scale q ⟨some M, L, A⟩ b).m =
      some (max M (blockMax (b.map fun kv => dotProd q kv.1 * qk_scale))) ∧
    (attnBlockStep qk_scale q ⟨some M, L, A⟩ b).l =
      L * exp2 (M - max M (blockMax (b.map fun kv => dotProd q kv.1 * qk_scale))) +
        (b.map fun kv => exp2 (dotProd q kv.1 * qk_scale -
          max M (blockMax (b.map fun kv => dotProd q kv.1 * qk_scale)))).sum ∧
    ∀ t, (attnBlockStep qk_scale q ⟨some M, L, A⟩ b).acc t =
      A t * exp2 (M - max M (blockMax (b.map fun kv => dotProd q kv.1 * qk_scale))) +
        (b.map fun kv => exp2 (dotProd q kv.1 * qk_scale -
          max M (blockMax (b.map fun kv => dotProd q kv.1 * qk_scale))) * kv.2 t).sum := by
  have hmax : blockMax (b.map fun kv => dotProd q kv.1 * qk_scale) =
      blockMax (b.map fun kv => dotProd q kv.1) * qk_scale := by
    rw [show (b.map fun kv => dotProd q kv.1 * qk_scale) =
        ((b.map fun kv => dotProd q kv.1).map fun x => x * qk_scale) by
      rw [List.map_map]; rfl]
    exact blockMax_map_mul_right qk_scale hscale _
  rw [hmax, attnBlockStep_some]
  exact ⟨rfl, rfl, fun t => rfl⟩

/-- Witness for `attn_fwd_inner_step` at a concrete one-element block. -/
theorem attn_fwd_inner_step_witness :
    ((0:ℝ) ≤ 1 ∧ ([((fun _ => (2:ℝ)), (fun _ => (3:ℝ)))] : List (KV 1)) ≠ []) ∧
    (attnBlockStep (d := 1) 1 (fun _ => (1:ℝ)) ⟨some 0, 1, fun _ => 0⟩
        [((fun _ => (2:ℝ)), (fun _ => (3:ℝ)))]).m =
      some (max 0 (blockMax
        (([((fun _ => (2:ℝ)), (fun _ => (3:ℝ)))] : List (KV 1)).map
          fun kv => dotProd (fun _ => (1:ℝ)) kv.1 * 1))) :=
  ⟨⟨by norm_num, by simp⟩,
    (attn_fwd_inner_step 1 (by norm_num) (fun _ => (1:ℝ)) 0 1 (fun _ => 0)
      [((fun _ => (2:ℝ)), (fun _ => (3:ℝ)))] (by simp)).1⟩

/-- Witness for `attn_fwd_tiled_eq_direct` at a concrete two-element key
sequence tiled with `BLOCK_N = 1`. -/
theorem attn_fwd_tiled_eq_direct_witness :
    0 < 1 ∧
    (attnForwardRow ((1:ℝ) * log2e) (fun _ => (1:ℝ))
        (chunk 1 ([((fun _ => (1:ℝ)), (fun _ => (5:ℝ))),
                   ((fun _ => (2:ℝ)), (fun _ => (7:ℝ)))] : List (KV 1)))).2 0 =
      directAttentionRow 1 (fun _ => (1:ℝ))
        ([((fun _ => (1:ℝ)), (fun _ => (5:ℝ))),
          ((fun _ => (2:ℝ)), (fun _ => (7:ℝ)))] : List (KV 1)) 0 :=
  ⟨by norm_num,
    attn_fwd_tiled_eq_direct 1 (fun _ => (1:ℝ)) _ 1 (by norm_num) 0⟩

/-- C4: after all key tiles are folded in, the loop state still holds the
unnormalised sums (relative to some reference `M`), and the epilogue of
`_attn_fwd_compute` produces the row statistic `m + log2(l)` and the output
row `acc / l`: the normalisation by `l` happens exactly once, after the tile
loop, never inside a tile iteration. -/
theorem attn_fwd_epilogue_once {d : ℕ} (qk_scale : ℝ) (q : Fin d → ℝ)
    (blocks : List (List (KV d))) (hne : blocks ≠ []) :
    ∃ M : ℝ,
      attnForwardRowState qk_scale q blocks =
        ⟨some M, sumExpList qk_scale q blocks.flatten M,
         fun t => wsumList qk_scale q blocks.flatten M t⟩ ∧
      attnForwardRow qk_scale q blocks =
        (some (M + Real.logb 2 (sumExpList qk_scale q blocks.flatten M)),
         fun t => wsumList qk_scale q blocks.flatten M t /
           sumExpList qk_scale q blocks.flatten M) := by
  obtain ⟨M, hM⟩ := attnForwardRowState_spec qk_scale q blocks hne
  refine ⟨M, hM, ?_⟩
  unfold attnForwardRow
  rw [hM]
  rfl

/-- Witness for `attn_fwd_epilogue_once` at a concrete one-tile block list. -/
theorem attn_fwd_epilogue_once_witness :
    (([[((fun _ => (0:ℝ)), (fun _ => (0:ℝ)))]] : List (List (KV 1))) ≠ []) ∧
    ∃ M : ℝ,
      (attnForwardRow (d := 1) 1 (fun _ => (1:ℝ))
          [[((fun _ => (0:ℝ)), (fun _ => (0:ℝ)))]]).1 =
        some (M + Real.logb 2 (sumExpList 1 (fun _ => (1:ℝ))
          ([[((fun _ => (0:ℝ)), (fun _ => (0:ℝ)))]] : List (List (KV 1))).flatten M)) := by
  refine ⟨by simp, ?_⟩
  obtain ⟨M, _, h2⟩ := attn_fwd_epilogue_once (d := 1) 1 (fun _ => (1:ℝ))
    [[((fun _ => (0:ℝ)), (fun _ => (0:ℝ)))]] (by simp)
  exact ⟨M, congrArg Prod.fst h2⟩

/-! ### Iteration space of the forward kernel stages (`STAGE` dispatch) -/

/-- One visit of the inner loop: the starting key index of the tile and
whether the causal mask is applied in that iteration (`STAGE == 2`). -/
structure TileVisit where
  start : ℕ
  masked : Bool
deriving DecidableEq

/-- Starting indices of `for start_n in tl.range(lo, hi, step)`:
`lo, lo+step, ...` strictly below `hi` (`(hi - lo + step - 1) / step`
iterations). -/
def loopStarts (lo hi step : ℕ) : List ℕ :=
  List.range' lo ((hi - lo + step - 1) / step) step

/-- Lower bound of the key range of a stage of `_attn_fwd_inner`:
`STAGE == 1` gives `0`, `STAGE == 2` gives `start_m * BLOCK_M`, anything else
(the non-causal `STAGE == 3`) gives `0`. -/
def stageLo (STAGE start_m BLOCK_M : ℕ) : ℕ :=
  if STAGE = 1 then 0 else if STAGE = 2 then start_m * BLOCK_M else 0

/-- Upper bound of the key range of a stage of `_attn_fwd_inner`. -/
def stageHi (STAGE start_m BLOCK_M N_CTX : ℕ) : ℕ :=
  if STAGE = 1 then start_m * BLOCK_M
  else if STAGE = 2 then (start_m + 1) * BLOCK_M else N_CTX

/-- Key-tile visits of one call to `_attn_fwd_inner`: the loop over
`tl.range(lo, hi, BLOCK_N)` with the causal mask applied iff `STAGE == 2`. -/
def innerVisits (STAGE start_m BLOCK_M BLOCK_N N_CTX : ℕ) : List TileVisit :=
  (loopStarts (stageLo STAGE start_m BLOCK_M) (stageHi STAGE start_m BLOCK_M N_CTX)
    BLOCK_N).map fun a => ⟨a, STAGE == 2⟩

/-- Key-tile visits of `_attn_fwd_compute` for the query tile `start_m`:
the host sets `STAGE = 3` when causal and `STAGE = 1` otherwise, and the
kernel runs `_attn_fwd_inner` with `4 - STAGE` when `STAGE & 1` and then with
`2` when `STAGE & 2`. -/
def fwdComputeVisits (causal : Bool) (start_m BLOCK_M BLOCK_N N_CTX : ℕ) :
    List TileVisit :=
  let STAGE := if causal then 3 else 1
  (if STAGE &&& 1 ≠ 0 then innerVisits (4 - STAGE) start_m BLOCK_M BLOCK_N N_CTX
   else []) ++
  (if STAGE &&& 2 ≠ 0 then innerVisits 2 start_m BLOCK_M BLOCK_N N_CTX else [])

/-- Key indices read by one tile visit: a `BLOCK_N`-wide block starting at
the visit's start index. -/
def visitKeys (BLOCK_N : ℕ) (v : TileVisit) : List ℕ := List.range' v.start BLOCK_N

lemma loopStarts_of_dvd (lo hi BN : ℕ) (h : 0 < BN) (hd : BN ∣ hi - lo) :
    loopStarts lo hi BN = List.range' lo ((hi - lo) / BN) BN := by
  unfold loopStarts
  congr 1
  obtain ⟨k, hk⟩ := hd
  rw [hk]
  have h1 : BN * k + BN - 1 = BN * k + (BN - 1) := by omega
  rw [h1, Nat.mul_add_div h, Nat.mul_div_cancel_left k h,
    Nat.div_eq_of_lt (by omega), Nat.add_zero]

lemma tiles_flatten (BN : ℕ) :
    ∀ (k lo : ℕ), ((List.range' lo k BN).map fun a => List.range' a BN).flatten =
      List.range' lo (k * BN) := by
  intro k
  induction k with
  | zero => simp
  | succ n ih =>
      intro lo
      rw [List.range'_succ, List.map_cons, List.flatten_cons, ih (lo + BN)]
      have h1 : lo + BN = lo + 1 * BN := by omega
      rw [h1, List.range'_append, Nat.succ_mul, Nat.add_comm (n * BN) BN]

lemma mem_loopStarts_bound (lo hi BN : ℕ) (h : 0 < BN) (hd : BN ∣ hi - lo)
    (hle : lo ≤ hi) : ∀ a ∈ loopStarts lo hi BN, a + BN ≤ hi := by
  rw [loopStarts_of_dvd lo hi BN h hd]
  intro a ha
  rw [List.mem_range'] at ha
  obtain ⟨i, hi2, rfl⟩ := ha
  have hK : (hi - lo) / BN * BN = hi - lo := Nat.div_mul_cancel hd
  have h2 : BN * (i + 1) ≤ BN * ((hi - lo) / BN) := Nat.mul_le_mul_left BN hi2
  have h3 : BN * ((hi - lo) / BN) = hi - lo := by rw [Nat.mul_comm]; exact hK
  have h4 : BN * (i + 1) = BN * i + BN := by ring
  omega

lemma flatten_visits (lo hi BN : ℕ) (hBN : 0 < BN) (hd : BN ∣ hi - lo)
    (hle : lo ≤ hi) (b : Bool) :
    ((((loopStarts lo hi BN).map fun a => TileVisit.mk a b).map (visitKeys BN)).flatten) =
      List.range' lo (hi - lo) := by
  rw [List.map_map]
  have h1 : (visitKeys BN ∘ fun a => TileVisit.mk a b) = fun a => List.range' a BN := rfl
  rw [h1, loopStarts_of_dvd lo hi BN hBN hd, tiles_flatten BN ((hi - lo) / BN) lo,
    Nat.div_mul_cancel hd]

/-- C3: in causal mode the forward kernel visits exactly the key tiles
covering `[0, start_m * BLOCK_M)` without the mask (inner `STAGE = 1`) and
exactly those covering `[start_m * BLOCK_M, (start_m + 1) * BLOCK_M)` with the
causal mask (inner `STAGE = 2`), and every visited tile ends at or before the
diagonal boundary `(start_m + 1) * BLOCK_M`; in non-causal mode it visits the
full key range `[0, N_CTX)` as one unmasked region and performs no masked
visit. -/
theorem attn_fwd_stage_ranges (s BM BN N : ℕ) (hBN : 0 < BN) (hBM : BN ∣ BM)
    (hN : BN ∣ N) :
    fwdComputeVisits true s BM BN N =
        ((loopStarts 0 (s * BM) BN).map fun a => ⟨a, false⟩) ++
          ((loopStarts (s * BM) ((s + 1) * BM) BN).map fun a => ⟨a, true⟩) ∧
    ((((fwdComputeVisits true s BM BN N).filter fun v => !v.masked).map
        (visitKeys BN)).flatten = List.range' 0 (s * BM)) ∧
    ((((fwdComputeVisits true s BM BN N).filter fun v => v.masked).map
        (visitKeys BN)).flatten = List.range' (s * BM) BM) ∧
    (∀ v ∈ fwdComputeVisits true s BM BN N, v.start + BN ≤ (s + 1) * BM) ∧
    fwdComputeVisits false s BM BN N = ((loopStarts 0 N BN).map fun a => ⟨a, false⟩) ∧
    (((fwdComputeVisits false s BM BN N).map (visitKeys BN)).flatten =
      List.range' 0 N) := by
  have hsucc : (s + 1) * BM = s * BM + BM := by ring
  have hsBM : BN ∣ s * BM := (hBM.mul_left s)
  have hdiag : BN ∣ (s + 1) * BM - s * BM := by
    rw [hsucc, Nat.add_sub_cancel_left]
    exact hBM
  have hv1 : fwdComputeVisits true s BM BN N =
      ((loopStarts 0 (s * BM) BN).map fun a => ⟨a, false⟩) ++
        ((loopStarts (s * BM) ((s + 1) * BM) BN).map fun a => ⟨a, true⟩) := by
    simp [fwdComputeVisits, innerVisits, stageLo, stageHi]
  have hv5 : fwdComputeVisits false s BM BN N =
      (loopStarts 0 N BN).map fun a => ⟨a, false⟩ := by
    simp [fwdComputeVisits, innerVisits, stageLo, stageHi]
  refine ⟨hv1, ?_, ?_, ?_, hv5, ?_⟩
  · rw [hv1, List.filter_append]
    have hA : (((loopStarts 0 (s * BM) BN).map fun a => TileVisit.mk a false).filter
        fun v => !v.masked) = (loopStarts 0 (s * BM) BN).map fun a => ⟨a, false⟩ := by
      apply List.filter_eq_self.mpr
      intro v hv
      obtain ⟨a, _, rfl⟩ := List.mem_map.mp hv
      rfl
    have hB : (((loopStarts (s * BM) ((s + 1) * BM) BN).map fun a =>
        TileVisit.mk a true).filter fun v => !v.masked) = [] := by
      apply List.filter_eq_nil_iff.mpr
      intro v hv
      obtain ⟨a, _, rfl⟩ := List.mem_map.mp hv
      simp
    rw [hA, hB, List.append_nil]
    have := flatten_visits 0 (s * BM) BN hBN (by simpa using hsBM) (Nat.zero_le _) false
    simpa using this
  · rw [hv1, List.filter_append]
    have hA : (((loopStarts 0 (s * BM) BN).map fun a => TileVisit.mk a false).filter
        fun v => v.masked) = [] := by
      apply List.filter_eq_nil_iff.mpr
      intro v hv
      obtain ⟨a, _, rfl⟩ := List.mem_map.mp hv
      simp
    have hB : (((loopStarts (s * BM) ((s + 1) * BM) BN).map fun a =>
        TileVisit.mk a true).filter fun v => v.masked) =
        (loopStarts (s * BM) ((s + 1) * BM) BN).map fun a => ⟨a, true⟩ := by
      apply List.filter_eq_self.mpr
      intro v hv
      obtain ⟨a, _, rfl⟩ := List.mem_map.mp hv
      rfl
    rw [hA, hB, List.nil_append]
    have := flatten_visits (s * BM) ((s + 1) * BM) BN hBN hdiag
      (by omega) true
    rw [this, hsucc, Nat.add_sub_cancel_left]
  · intro v hv
    rw [hv1, List.mem_append] at hv
    rcases hv with hv | hv
    · obtain ⟨a, ha, rfl⟩ := List.mem_map.mp hv
      have := mem_loopStarts_bound 0 (s * BM) BN hBN (by simpa using hsBM)
        (Nat.zero_le _) a ha
      simp only at this ⊢
      omega
    · obtain ⟨a, ha, rfl⟩ := List.mem_map.mp hv
      have := mem_loopStarts_bound (s * BM) ((s + 1) * BM) BN hBN hdiag
        (by omega) a ha
      simpa using this
  · rw [hv5]
    have := flatten_visits 0 N BN hBN (by simpa using hN) (Nat.zero_le _) false
    simpa using this

/-- Witness for `attn_fwd_stage_ranges` at `start_m = 1`, `BLOCK_M = 2`,
`BLOCK_N = 2`, `N_CTX = 4`. -/
theorem attn_fwd_stage_ranges_witness :
    ((0 < 2) ∧ (2 ∣ 2) ∧ (2 ∣ 4)) ∧
    (∀ v ∈ fwdComputeVisits true 1 2 2 4, v.start + 2 ≤ (1 + 1) * 2) :=
  ⟨⟨by norm_num, by norm_num, by norm_num⟩,
    (attn_fwd_stage_ranges 1 2 2 4 (by norm_num) (by norm_num) (by norm_num)).2.2.2.1⟩

/-! ### Causal mode, per query row -/

/-- Key/value entries paired with their absolute sequence positions, used for
the causal mask `offs_m >= start_n + offs_n`. -/
def withIdx {α : Type} : ℕ → List α → List (ℕ × α)
  | _, [] => []
  | i, x :: xs => (i, x) :: withIdx (i + 1) xs

/-- One iteration of the masked branch (`STAGE == 2`) of the loop body of
`_attn_fwd_inner`, for the query row of absolute index `iIdx`:

* `mask = offs_m >= start_n + offs_n` (here `iIdx >= j`);
* `qk = qk * qk_scale + tl.where(mask, 0, -1.0e6)`;
* `m_ij = tl.maximum(m_i, tl.max(qk, 1))`; `qk -= m_ij`;
* `p = tl.math.exp2(qk)`; and the same `l`/`acc` update as the unmasked
  branch.  The sentinel is the finite value `-1.0e6`, not `-inf`. -/
noncomputable def attnMaskedBlockStep {d : ℕ} (qk_scale : ℝ) (iIdx : ℕ)
    (q : Fin d → ℝ) (st : FwdState d) (b : List (ℕ × KV d)) : FwdState d :=
  let sc : ℕ × KV d → ℝ := fun jkv =>
    dotProd q jkv.2.1 * qk_scale + (if jkv.1 ≤ iIdx then 0 else -(1000000 : ℝ))
  let mij := optMax st.m (blockMax (b.map sc))
  let p : ℕ × KV d → ℝ := fun jkv => exp2 (sc jkv - mij)
  let alpha := alphaOf st.m mij
  { m := some mij
    l := st.l * alpha + (b.map p).sum
    acc := fun t => st.acc t * alpha + (b.map fun jkv => p jkv * jkv.2.2 t).sum }

/-- Causal forward state for the query row of absolute index `iIdx`, which
lives in query tile `start_m = iIdx / BLOCK_M`: stage 1 folds the unmasked
update over the `BLOCK_N`-chunks of keys `[0, start_m * BLOCK_M)`, stage 2
folds the masked update over the `BLOCK_N`-chunks of the diagonal keys
`[start_m * BLOCK_M, start_m * BLOCK_M + BLOCK_M)` (the visited ranges proved
in `attn_fwd_stage_ranges`). -/
noncomputable def causalRowState {d : ℕ} (qk_scale : ℝ) (BM BN iIdx : ℕ)
    (q : Fin d → ℝ) (kvs : List (KV d)) : FwdState d :=
  (chunk BN (((withIdx 0 kvs).drop (iIdx / BM * BM)).take BM)).foldl
    (attnMaskedBlockStep qk_scale iIdx q)
    ((chunk BN (kvs.take (iIdx / BM * BM))).foldl (attnBlockStep qk_scale q)
      (initState d))

/-- Causal forward output row (epilogue `acc / l`) for the query row of
absolute index `iIdx`. -/
noncomputable def causalRowOut {d : ℕ} (qk_scale : ℝ) (BM BN iIdx : ℕ)
    (q : Fin d → ℝ) (kvs : List (KV d)) (t : Fin d) : ℝ :=
  (causalRowState qk_scale BM BN iIdx q kvs).acc t /
    (causalRowState qk_scale BM BN iIdx q kvs).l

lemma withIdx_take {α : Type} :
    ∀ (n m : ℕ) (l : List α), (withIdx n l).take m = withIdx n (l.take m) := by
  intro n m
  induction m generalizing n with
  | zero => intro l; simp [withIdx]
  | succ k ih =>
      intro l
      cases l with
      | nil => simp [withIdx]
      | cons x xs => simp [withIdx, List.take_succ_cons, ih (n + 1) xs]

lemma withIdx_drop {α : Type} :
    ∀ (n m : ℕ) (l : List α), (withIdx n l).drop m = withIdx (n + m) (l.drop m) := by
  intro n m
  induction m generalizing n with
  | zero => intro l; simp
  | succ k ih =>
      intro l
      cases l with
      | nil => simp [withIdx]
      | cons x xs =>
          simp only [withIdx, List.drop_succ_cons, ih (n + 1) xs]
          congr 1
          omega

lemma take_drop_of_take_eq {α : Type} (a b : ℕ) (l l' : List α)
    (h : l.take (a + b) = l'.take (a + b)) :
    (l.drop a).take b = (l'.drop a).take b := by
  rw [List.take_drop, List.take_drop, h]

/-- Amended C6: in causal mode, the output at row `i` depends only on the
keys/values at positions below the end of row `i`'s query tile,
`(i / BLOCK_M + 1) * BLOCK_M`: two runs whose key/value sequences agree on
those positions produce identical output at row `i`.  (Positions `j > i`
inside the same diagonal tile do influence row `i` through the finite
`-1.0e6` mask sentinel, which is not an exact zero weight over exact reals —
see `causal_row_sentinel_leak`.) -/
theorem causal_row_depends_only_on_visible_tiles {d : ℕ} (qk_scale : ℝ)
    (BM BN iIdx : ℕ) (q : Fin d → ℝ) (kvs kvs' : List (KV d))
    (h : kvs.take ((iIdx / BM + 1) * BM) = kvs'.take ((iIdx / BM + 1) * BM))
    (t : Fin d) :
    causalRowOut qk_scale BM BN iIdx q kvs t =
      causalRowOut qk_scale BM BN iIdx q kvs' t := by
  have hsucc : (iIdx / BM + 1) * BM = iIdx / BM * BM + BM := by ring
  rw [hsucc] at h
  have h1 : kvs.take (iIdx / BM * BM) = kvs'.take (iIdx / BM * BM) := by
    have h3 := congrArg (List.take (iIdx / BM * BM)) h
    rw [List.take_take, List.take_take] at h3
    have hmin : iIdx / BM * BM ⊓ (iIdx / BM * BM + BM) = iIdx / BM * BM := by omega
    rwa [hmin] at h3
  have h2 : ((withIdx 0 kvs).drop (iIdx / BM * BM)).take BM =
      ((withIdx 0 kvs').drop (iIdx / BM * BM)).take BM := by
    rw [withIdx_drop, withIdx_drop, withIdx_take, withIdx_take,
      take_drop_of_take_eq _ _ kvs kvs' h]
  have hstate : causalRowState qk_scale BM BN iIdx q kvs =
      causalRowState qk_scale BM BN iIdx q kvs' := by
    unfold causalRowState
    rw [h1, h2]
  unfold causalRowOut
  rw [hstate]

/-- Witness for `causal_row_depends_only_on_visible_tiles`: two sequences
differing only at position 1 > row 0, row 0 in a one-row tile. -/
theorem causal_row_depends_only_on_visible_tiles_witness :
    (([((fun _ => (0:ℝ)), (fun _ => (0:ℝ))), ((fun _ => (0:ℝ)), (fun _ => (2:ℝ)))] :
        List (KV 1)).take ((0 / 1 + 1) * 1) =
      ([((fun _ => (0:ℝ)), (fun _ => (0:ℝ))), ((fun _ => (0:ℝ)), (fun _ => (3:ℝ)))] :
        List (KV 1)).take ((0 / 1 + 1) * 1)) ∧
    causalRowOut (d := 1) 1 1 1 0 (fun _ => (0:ℝ))
        [((fun _ => (0:ℝ)), (fun _ => (0:ℝ))), ((fun _ => (0:ℝ)), (fun _ => (2:ℝ)))] 0 =
      causalRowOut (d := 1) 1 1 1 0 (fun _ => (0:ℝ))
        [((fun _ => (0:ℝ)), (fun _ => (0:ℝ))), ((fun _ => (0:ℝ)), (fun _ => (3:ℝ)))] 0 :=
  ⟨rfl, causal_row_depends_only_on_visible_tiles (d := 1) 1 1 1 0 (fun _ => (0:ℝ))
    _ _ rfl 0⟩

lemma exp2_zero : exp2 0 = 1 := Real.rpow_zero 2

/-- Concrete evaluation of the causal forward for a two-position sequence,
one query tile of two rows (`BLOCK_M = BLOCK_N = 2`), query row 0, zero keys
and zero query: the masked position 1 enters the output of row 0 with the
weight `exp2(-1.0e6)` of the mask sentinel. -/
lemma causalRowOut_pair_eval (v0 v1 : ℝ) :
    causalRowOut (d := 1) 1 2 2 0 (fun _ => (0:ℝ))
        [((fun _ => (0:ℝ)), (fun _ => v0)), ((fun _ => (0:ℝ)), (fun _ => v1))] 0 =
      (v0 + exp2 (-1000000) * v1) / (1 + exp2 (-1000000)) := by
  have hmax : max (0 : ℝ) (-1000000) = 0 := max_eq_left (by norm_num)
  norm_num [causalRowOut, causalRowState, chunk, chunkFuel, withIdx,
    attnMaskedBlockStep, attnBlockStep, initState, optMax, alphaOf, blockMax,
    dotProd, exp2_zero, hmax]

/-- C6 counterexample: over exact real arithmetic, perturbing the value at
position `j = 1 > i = 0` (inside row 0's own diagonal tile) does change the
causal output at row 0, because the causal mask uses the finite sentinel
`-1.0e6` rather than `-inf`, so masked positions keep the weight
`exp2(-1.0e6) > 0`. -/
theorem causal_row_sentinel_leak :
    causalRowOut (d := 1) 1 2 2 0 (fun _ => (0:ℝ))
        [((fun _ => (0:ℝ)), (fun _ => (0:ℝ))), ((fun _ => (0:ℝ)), (fun _ => (0:ℝ)))] 0 ≠
      causalRowOut (d := 1) 1 2 2 0 (fun _ => (0:ℝ))
        [((fun _ => (0:ℝ)), (fun _ => (0:ℝ))), ((fun _ => (0:ℝ)), (fun _ => (1:ℝ)))] 0 := by
  rw [causalRowOut_pair_eval, causalRowOut_pair_eval]
  have hpos : 0 < exp2 (-1000000 : ℝ) := exp2_pos _
  have hD : 0 < 1 + exp2 (-1000000 : ℝ) := by linarith
  simp only [mul_zero, add_zero, zero_add, mul_one, zero_div]
  exact ne_of_lt (div_pos hpos hD)

/-! ### Backward pass -/

/-- Row computation of `_attn_bwd_preprocess`: loads the forward-output row
`o` and the incoming-gradient row `do`, and stores
`delta = tl.sum(o * do, axis=1)`. -/
noncomputable def attnBwdPreprocessDelta {d : ℕ} (o dO : Fin d → ℝ) : ℝ :=
  ∑ t, o t * dO t

/-- A fixed key tile of `_attn_bwd_dkdv`: `BLOCK_N1` key rows `k`, value rows
`v`, and their absolute sequence positions `offs_n` (used for the
autoregressive mask). -/
structure BwdKeyTile (nk d : ℕ) where
  idx : Fin nk → ℕ
  k : Fin nk → Fin d → ℝ
  v : Fin nk → Fin d → ℝ

/-- One query block of the `_attn_bwd_dkdv` inner loop: `BLOCK_M1` query rows
`qT`, their positions `offs_m`, the saved forward row statistics `m`
(`M = m + log2(l)`, loaded from the tensor written by the forward epilogue),
the incoming gradient rows `do`, and the precomputed per-row `Delta`
(`D`, written by `_attn_bwd_preprocess`).  The host pre-scales `K` by
`sm_scale * RCP_LN2` before launching `_attn_bwd`, so `tl.dot(k, qT)` is
already in the base-2 logit domain. -/
structure BwdQueryBlock (nq d : ℕ) where
  idx : Fin nq → ℕ
  q : Fin nq → Fin d → ℝ
  dO : Fin nq → Fin d → ℝ
  m : Fin nq → ℝ
  delta : Fin nq → ℝ

/-- Recomputed attention weight `pT` of `_attn_bwd_dkdv`:
`qkT = tl.dot(k, qT)`; `pT = tl.math.exp2(qkT - m)`; if `MASK`,
`pT = tl.where(offs_m >= offs_n, pT, 0.0)`. -/
noncomputable def bwdP {nk nq d : ℕ} (mask : Bool) (kt : BwdKeyTile nk d)
    (qb : BwdQueryBlock nq d) (n : Fin nk) (mi : Fin nq) : ℝ :=
  let p := exp2 (dotProd (kt.k n) (qb.q mi) - qb.m mi)
  if mask then (if kt.idx n ≤ qb.idx mi then p else 0) else p

/-- One step of the inner loop of `_attn_bwd_dkdv` (one query block folded
into the `dk`/`dv` accumulators), in source order:

* `qkT = tl.dot(k, qT)`; `pT = tl.math.exp2(qkT - m)`; masking;
* `dv += tl.dot(ppT, do)` (the `bfloat16` cast of `ppT` is an identity in
  the exact-real model);
* `dpT = tl.dot(v, tl.trans(do))`; `dsT = pT * (dpT - Di)`;
* `dk += tl.dot(dsT, tl.trans(qT))`. -/
noncomputable def attnBwdDkdvStep {nk nq d : ℕ} (mask : Bool)
    (kt : BwdKeyTile nk d) (qb : BwdQueryBlock nq d)
    (dk dv : Fin nk → Fin d → ℝ) :
    (Fin nk → Fin d → ℝ) × (Fin nk → Fin d → ℝ) :=
  let pT := bwdP mask kt qb
  let dv' := fun n t => dv n t + ∑ mi, pT n mi * qb.dO mi t
  let dpT := fun n mi => dotProd (kt.v n) (qb.dO mi)
  let dsT := fun n mi => pT n mi * (dpT n mi - qb.delta mi)
  let dk' := fun n t => dk n t + ∑ mi, dsT n mi * qb.q mi t
  (dk', dv')

/-- C5: `Delta` is the row-wise sum of `Out * dOut` (as computed by
`_attn_bwd_preprocess` before the dK/dV sweep), and each `_attn_bwd_dkdv`
step recomputes the attention weight `P = exp2(logit - row_statistic)` from
the saved forward row statistic (zeroed above the diagonal when masking),
then accumulates `dV += Pᵀ @ dOut` and `dK += dSᵀ @ Q` with
`dS = P * (dP - Delta)` and `dP = dOut @ Vᵀ`, stated entrywise. -/
theorem attn_bwd_dkdv_step_eq {nk nq d : ℕ} (mask : Bool)
    (kt : BwdKeyTile nk d) (qb : BwdQueryBlock nq d)
    (dk dv : Fin nk → Fin d → ℝ) (o dO : Fin d → ℝ) :
    attnBwdPreprocessDelta o dO = ∑ t, o t * dO t ∧
    (∀ n mi, bwdP false kt qb n mi =
      exp2 (dotProd (kt.k n) (qb.q mi) - qb.m mi)) ∧
    (∀ n mi, bwdP true kt qb n mi =
      if kt.idx n ≤ qb.idx mi then
        exp2 (dotProd (kt.k n) (qb.q mi) - qb.m mi) else 0) ∧
    (∀ n t, (attnBwdDkdvStep mask kt qb dk dv).2 n t =
      dv n t + ∑ mi, bwdP mask kt qb n mi * qb.dO mi t) ∧
    (∀ n t, (attnBwdDkdvStep mask kt qb dk dv).1 n t =
      dk n t + ∑ mi, (bwdP mask kt qb n mi *
        (dotProd (kt.v n) (qb.dO mi) - qb.delta mi)) * qb.q mi t) :=
  ⟨rfl, fun _ _ => rfl, fun _ _ => rfl, fun _ _ => rfl, fun _ _ => rfl⟩

/-! ### Host-side validation, dispatch and the autotune candidate pool -/

/-- Head dimensions accepted by `_attention_opt.forward`:
`assert HEAD_DIM_K in (16, 32, 64, 128, 256)` (written as a set literal in
the source). -/
def supportedHeadDims : List ℕ := [16, 32, 64, 128, 256]

/-- Variant strings with a dispatch branch in `_attention_opt.forward`. -/
def recognizedVariants : List String := ["base", "ws", "opt", "tma", "tma_ws"]

/-- Contents of a tensor allocated with `torch.empty_like` / `torch.empty`:
either still unwritten, or written by the named kernel. -/
inductive BufferState
  | unwritten
  | writtenBy (kernel : String)
deriving DecidableEq

/-- Observable outcome of a successful `_attention_opt.forward` call: which
kernel (if any) was launched, and the contents of the returned output tensor
`o` and of the row-statistics tensor `M`. -/
structure FwdResult where
  launchedKernel : Option String
  out : BufferState
  rowStats : BufferState
deriving DecidableEq

/-- Kernel launched by the `baseVariant` dispatch chain of
`_attention_opt.forward` (`if baseVariant == "base": ... elif ...`); `none`
when no branch matches. -/
def launchFor (variant : String) : Option String :=
  if variant = "base" then some "_attn_fwd"
  else if variant = "ws" then some "_attn_fwd_ws"
  else if variant = "opt" then some "_attn_fwd_opt"
  else if variant = "tma" then some "_attn_fwd_tma"
  else if variant = "tma_ws" then some "_attn_fwd_tma_ws"
  else none

/-- Host logic of `_attention_opt.forward`: the two shape asserts run first
(`HEAD_DIM_Q == HEAD_DIM_K == HEAD_DIM_V`, then membership of the supported
set), before `o = torch.empty_like(q)`, `M = torch.empty(...)` and any
kernel dispatch; a failed assert raises before any launch.  On success the
dispatch chain launches at most one kernel, which writes `o` and `M`; if no
branch matches, both tensors are returned/saved with unwritten contents. -/
def attnForwardRun (dimQ dimK dimV : ℕ) (variant : String) :
    Except String FwdResult :=
  if ¬(dimQ = dimK ∧ dimK = dimV) then
    Except.error "assert HEAD_DIM_Q == HEAD_DIM_K == HEAD_DIM_V"
  else if ¬(dimK ∈ supportedHeadDims) then
    Except.error "assert HEAD_DIM_K in supported set"
  else
    Except.ok
      { launchedKernel := launchFor variant
        out := match launchFor variant with
          | some k => BufferState.writtenBy k
          | none => BufferState.unwritten
        rowStats := match launchFor variant with
          | some k => BufferState.writtenBy k
          | none => BufferState.unwritten }

/-- C7 counterexample: with agreeing, supported head dimensions but a
variant string outside the recognized set, validation passes yet no kernel
launch is attempted (`launchedKernel = none`, both buffers unwritten), so
the claim's "otherwise ... a kernel launch is attempted" fails. -/
theorem attn_fwd_valid_dims_no_launch_cex :
    (64 = 64 ∧ 64 = 64 ∧ 64 ∈ supportedHeadDims) ∧
    attnForwardRun 64 64 64 "bogus" =
      Except.ok ⟨none, BufferState.unwritten, BufferState.unwritten⟩ := by
  constructor
  · exact ⟨rfl, rfl, by decide⟩
  · rfl

/-- Amended C7: a validation error is raised (before any kernel launch — the
error return carries no launch) exactly when the head dimensions disagree or
the head dimension is outside the supported set; when validation passes and
the variant string is recognized, a kernel launch is attempted. -/
theorem attn_forward_validation (dimQ dimK dimV : ℕ) (variant : String) :
    ((∃ e, attnForwardRun dimQ dimK dimV variant = Except.error e) ↔
      ¬(dimQ = dimK ∧ dimK = dimV ∧ dimK ∈ supportedHeadDims)) ∧
    ((dimQ = dimK ∧ dimK = dimV ∧ dimK ∈ supportedHeadDims) →
      variant ∈ recognizedVariants →
      ∃ k, attnForwardRun dimQ dimK dimV variant =
        Except.ok ⟨some k, BufferState.writtenBy k, BufferState.writtenBy k⟩) := by
  constructor
  · unfold attnForwardRun
    by_cases hA : dimQ = dimK ∧ dimK = dimV
    · by_cases hB : dimK ∈ supportedHeadDims
      · rw [if_neg (not_not_intro hA), if_neg (not_not_intro hB)]
        constructor
        · rintro ⟨e, he⟩
          exact Except.noConfusion he
        · intro hcon
          exact absurd ⟨hA.1, hA.2, hB⟩ hcon
      · rw [if_neg (not_not_intro hA), if_pos hB]
        constructor
        · intro _ hcon
          exact hB hcon.2.2
        · intro _
          exact ⟨_, rfl⟩
    · rw [if_pos hA]
      constructor
      · intro _ hcon
        exact hA ⟨hcon.1, hcon.2.1⟩
      · intro _
        exact ⟨_, rfl⟩
  · intro hvalid hrec
    have hk : ∃ k, launchFor variant = some k := by
      unfold recognizedVariants at hrec
      unfold launchFor
      simp only [List.mem_cons, List.mem_singleton] at hrec
      rcases hrec with h | h | h | h | (h | h)
      all_goals first
        | exact absurd h (by simp)
        | (subst h; simp)
    obtain ⟨k, hlk⟩ := hk
    refine ⟨k, ?_⟩
    unfold attnForwardRun
    rw [if_neg (by tauto), if_neg (by tauto)]
    simp [hlk]

/-- Witness for `attn_forward_validation` at valid dims and the `base`
variant. -/
theorem attn_forward_validation_witness :
    (64 = 64 ∧ 64 = 64 ∧ 64 ∈ supportedHeadDims) ∧
    ∃ k, attnForwardRun 64 64 64 "base" =
      Except.ok ⟨some k, BufferState.writtenBy k, BufferState.writtenBy k⟩ :=
  ⟨⟨rfl, rfl, by decide⟩,
    (attn_forward_validation 64 64 64 "base").2 ⟨rfl, rfl, by decide⟩ (by decide)⟩

/-- C10: calling forward with a variant string outside the recognized set
raises no error, launches no kernel, and yields the `torch.empty_like(q)`
output tensor (and the `torch.empty` row-statistics tensor) with unwritten
contents. -/
theorem attn_forward_unknown_variant (dimQ dimK dimV : ℕ) (variant : String)
    (hvar : variant ∉ recognizedVariants)
    (hvalid : dimQ = dimK ∧ dimK = dimV ∧ dimK ∈ supportedHeadDims) :
    attnForwardRun dimQ dimK dimV variant =
      Except.ok ⟨none, BufferState.unwritten, BufferState.unwritten⟩ := by
  have hnone : launchFor variant = none := by
    unfold launchFor
    split_ifs with h1 h2 h3 h4 h5
    · exact absurd (h1 ▸ hvar) (by simp [recognizedVariants])
    · exact absurd (h2 ▸ hvar) (by simp [recognizedVariants])
    · exact absurd (h3 ▸ hvar) (by simp [recognizedVariants])
    · exact absurd (h4 ▸ hvar) (by simp [recognizedVariants])
    · exact absurd (h5 ▸ hvar) (by simp [recognizedVariants])
    · rfl
  unfold attnForwardRun
  rw [if_neg (by tauto), if_neg (by tauto)]
  simp [hnone]

/-- Witness for `attn_forward_unknown_variant` at a concrete unrecognized
variant string. -/
theorem attn_forward_unknown_variant_witness :
    ("bogus" ∉ recognizedVariants ∧ (64 = 64 ∧ 64 = 64 ∧ 64 ∈ supportedHeadDims)) ∧
    attnForwardRun 64 64 64 "bogus" =
      Except.ok ⟨none, BufferState.unwritten, BufferState.unwritten⟩ :=
  ⟨⟨by decide, rfl, rfl, by decide⟩,
    attn_forward_unknown_variant 64 64 64 "bogus" (by decide) ⟨rfl, rfl, by decide⟩⟩

/-- One autotune candidate configuration (the kwargs and launch parameters of
a `triton.Config` relevant to the filter and the static assertion). -/
structure TritonConfig where
  BLOCK_M : ℕ
  BLOCK_N : ℕ
  ENABLE_TMA : Bool
  LOOP_SCHEDULE : String
  num_stages : ℕ
  num_warps : ℕ
deriving DecidableEq

/-- The `configsOrig` candidate pool
(`BM in [64, 128], BN in [64, 128], s in [3, 4, 7], w in [4, 8]`, with
`ENABLE_TMA=False`, `LOOP_SCHEDULE="default"`), used by the autotuner of
`_attn_fwd` after filtering with `keep`. -/
def configsOrig : List TritonConfig :=
  [64, 128].flatMap fun BM =>
    [64, 128].flatMap fun BN =>
      [3, 4, 7].flatMap fun s =>
        [4, 8].map fun w => ⟨BM, BN, false, "default", s, w⟩

/-- The configuration-validity filter `keep`:
`if BLOCK_M * BLOCK_N < 128 * 128 and conf.num_warps == 8: return False;
return True`. -/
def keep (conf : TritonConfig) : Bool :=
  if conf.BLOCK_M * conf.BLOCK_N < 128 * 128 ∧ conf.num_warps = 8 then false
  else true

/-- The compile-time guard inside `_attn_fwd`:
`tl.static_assert(BLOCK_N <= HEAD_DIM)`, checked when the kernel is compiled
at launch, not during pool construction. -/
def staticAssertBlockN (BLOCK_N HEAD_DIM : ℕ) : Bool :=
  decide (BLOCK_N ≤ HEAD_DIM)

/-- C8 counterexample: no threshold depending on the larger tile dimension
can characterise `keep` as "reject exactly when tile-area × warp-count falls
below the threshold": on the actual pool, `keep` accepts (64, 64, 4 warps)
with product 16384 and rejects (64, 64, 8 warps) with the larger product
32768 and the same larger tile dimension, so rejection is not monotone in
the product. -/
theorem keep_no_occupancy_threshold_cex :
    ¬ ∃ f : ℕ → ℕ, ∀ c ∈ configsOrig,
      (keep c = false ↔
        c.BLOCK_M * c.BLOCK_N * c.num_warps < f (max c.BLOCK_M c.BLOCK_N)) := by
  rintro ⟨f, hf⟩
  have hc1 := hf ⟨64, 64, false, "default", 3, 4⟩ (by decide)
  have hc2 := hf ⟨64, 64, false, "default", 3, 8⟩ (by decide)
  norm_num [keep] at hc1 hc2
  omega

/-- Amended C8: the filter `keep` (applied to the candidate pool before
autotuning) rejects a configuration exactly when its tile area
`BLOCK_M * BLOCK_N` is below `128 * 128` while its warp count is exactly 8;
in particular the accepted configurations are those with a full-size tile or
fewer than 8 warps. -/
theorem keep_iff_small_tile_max_warps (conf : TritonConfig) :
    keep conf = false ↔
      conf.BLOCK_M * conf.BLOCK_N < 128 * 128 ∧ conf.num_warps = 8 := by
  unfold keep
  split_ifs with h
  · simpa using h
  · simpa using h

/-- C9 counterexample: the configuration `(BLOCK_M 64, BLOCK_N 64, 4 warps)`
survives the `keep` filtering of the candidate pool although its `BLOCK_N`
exceeds the supported head dimension 16, and for that head dimension the
kernel's `tl.static_assert(BLOCK_N <= HEAD_DIM)` fails — the incompatibility
is caught at kernel-compile (launch) time, not at configuration-construction
time. -/
theorem blockn_gt_headdim_in_filtered_pool_cex :
    (⟨64, 64, false, "default", 3, 4⟩ : TritonConfig) ∈ configsOrig.filter keep ∧
    16 ∈ supportedHeadDims ∧
    staticAssertBlockN 64 16 = false := by
  decide

/-- Amended C9: configurations with `BLOCK_N > HEAD_DIM` are not removed from
the candidate pool (`keep` looks only at tile area and warp count); they are
rejected by the kernel's static assertion when compiled at launch.  On the
filtered pool, every configuration passes that assertion exactly for the
supported head dimensions at least 128. -/
theorem filtered_pool_static_assert_iff (hd : ℕ) (hmem : hd ∈ supportedHeadDims) :
    (128 ≤ hd ↔
      ∀ c ∈ configsOrig.filter keep, staticAssertBlockN c.BLOCK_N hd = true) := by
  fin_cases hmem <;> decide

/-- Witness for `filtered_pool_static_assert_iff` at head dimension 128. -/
theorem filtered_pool_static_assert_iff_witness :
    128 ∈ supportedHeadDims ∧
    (128 ≤ 128 ↔
      ∀ c ∈ configsOrig.filter keep, staticAssertBlockN c.BLOCK_N 128 = true) :=
  ⟨by decide, filtered_pool_static_assert_iff 128 (by decide)⟩

end TritonFusedAttention
